import Mathlib

/-!
Shallow embedding of `src/src/lib.rs` (GaloisInc/uxas_attribute_message).

Bytes are modelled as `Nat` (the code only compares bytes against the two
ASCII delimiter constants, so no arithmetic overflow is in play).  `Vec<u8>`
becomes `List Nat`; fallible decoding returns `Option`.
-/

namespace Uxas

/-- The attribute delimiter `MessageAttributes::DELIMITER`, ASCII `|` (0x7C). -/
def vbar : Nat := 124

/-- The envelope delimiter `AddressedAttributedMessage::DELIMITER`, ASCII `$` (0x24). -/
def dollar : Nat := 36

/-- Byte sequence of an ASCII string, as the Rust code's `as_bytes` produces. -/
def strBytes (s : String) : List Nat := s.toList.map Char.toNat

/-- Rust `slice::split(|b| *b == d)`: split a byte sequence at every occurrence
of the byte `d`, keeping empty chunks; `n` delimiters yield `n + 1` chunks. -/
def splitOnByte (d : Nat) : List Nat → List (List Nat)
  | [] => [[]]
  | b :: bs =>
    match splitOnByte d bs with
    | [] => [[]]
    | c :: cs => if b = d then [] :: c :: cs else (b :: c) :: cs

/-- Re-join chunks with a single delimiter byte between consecutive chunks
(the effect of `MessageAttributes::serialize` on its five fields). -/
def joinWithByte (d : Nat) : List (List Nat) → List Nat
  | [] => []
  | [c] => c
  | c :: cs => c ++ d :: joinWithByte d cs

/-- The forward scan of `AddressedAttributedMessage::deserialize`: find the first
occurrence of the byte `d`; on success return the bytes before it and the bytes
after it (the delimiter byte itself is consumed), mirroring
`data.drain(..idx)` followed by `data.remove(0)`. -/
def splitFirst (d : Nat) : List Nat → Option (List Nat × List Nat)
  | [] => none
  | b :: bs =>
    if b = d then some ([], bs)
    else
      match splitFirst d bs with
      | some (pre, post) => some (b :: pre, post)
      | none => none

/-- `struct MessageAttributes`: the five metadata fields, stored as raw bytes. -/
structure MessageAttributes where
  content_type : List Nat
  descriptor : List Nat
  sender_group : List Nat
  sender_entity_id : List Nat
  sender_service_id : List Nat
deriving DecidableEq

/-- `MessageAttributes::default()`: all five fields empty. -/
def MessageAttributes.default : MessageAttributes := ⟨[], [], [], [], []⟩

/-- `MessageAttributes::deserialize`: split the input on `|`; succeed exactly
when the split yields `CHUNKS_LEN = 5` chunks, assigned positionally to the
five fields (`chunks[0]` through `chunks[4]`); otherwise return `None`. -/
def MessageAttributes.deserialize (data : List Nat) : Option MessageAttributes :=
  match splitOnByte vbar data with
  | [c0, c1, c2, c3, c4] => some ⟨c0, c1, c2, c3, c4⟩
  | _ => none

/-- `MessageAttributes::serialize`: the five fields joined by `|`, no trailing
delimiter. -/
def MessageAttributes.serialize (m : MessageAttributes) : List Nat :=
  m.content_type ++ vbar ::
    (m.descriptor ++ vbar ::
      (m.sender_group ++ vbar ::
        (m.sender_entity_id ++ vbar :: m.sender_service_id)))

/-- `struct AddressedAttributedMessage`: address, attribute block, payload. -/
structure AddressedAttributedMessage where
  address : List Nat
  attributes : MessageAttributes
  payload : List Nat
deriving DecidableEq

/-- `AddressedAttributedMessage::default()`: empty address, default attributes,
empty payload. -/
def AddressedAttributedMessage.default : AddressedAttributedMessage :=
  ⟨[], MessageAttributes.default, []⟩

/-- `AddressedAttributedMessage::serialize`: address, `$`, serialized
attributes, `$`, payload — pure concatenation, no trailing delimiter. -/
def AddressedAttributedMessage.serialize (m : AddressedAttributedMessage) : List Nat :=
  m.address ++ dollar :: (m.attributes.serialize ++ dollar :: m.payload)

/-- The second loop of `AddressedAttributedMessage::deserialize` together with
the final `set_payload`: scan `rest` for the first `$`; if found, the bytes
before it must decode as a `MessageAttributes` (otherwise the whole decode
returns `None`) and the bytes after it become the payload; if no `$` is found
the loop falls through, the attributes stay at their default and all of `rest`
becomes the payload. -/
def deserializeRest (addr : List Nat) (rest : List Nat) :
    Option AddressedAttributedMessage :=
  match splitFirst dollar rest with
  | some (pre, post) =>
    match MessageAttributes.deserialize pre with
    | some attrs => some ⟨addr, attrs, post⟩
    | none => none
  | none => some ⟨addr, MessageAttributes.default, rest⟩

/-- `AddressedAttributedMessage::deserialize`: the first loop scans for the
first `$` and, if found, moves the bytes before it into `address` (consuming
the `$`); if no `$` exists the loop falls through with the address left empty
and the data untouched.  Then the attribute/payload phase runs on the
remainder. -/
def AddressedAttributedMessage.deserialize (data : List Nat) :
    Option AddressedAttributedMessage :=
  match splitFirst dollar data with
  | some (addr, rest) => deserializeRest addr rest
  | none => deserializeRest [] data

/-- The message built in the repository's `test_serialize`. -/
def exampleMessage : AddressedAttributedMessage :=
  { address := strBytes ("afrl.cmasi.AirVehicleState")
    attributes :=
      { content_type := strBytes ("lmcp")
        descriptor := strBytes ("afrl.cmasi.AirVehicleState")
        sender_group := []
        sender_entity_id := strBytes ("1")
        sender_service_id := strBytes ("2") }
    payload := strBytes ("LMCPthisisthepayloadhereblabla$sads$") }

/-- The repository's `TEST_DATA` byte string. -/
def exampleWire : List Nat :=
  strBytes
    ("afrl.cmasi.AirVehicleState$lmcp|afrl.cmasi.AirVehicleState||1|2$LMCPthisisthepayloadhereblabla$sads$")

/-! ## Helper lemmas about `splitOnByte`, `joinWithByte` and `splitFirst` -/

theorem splitOnByte_cons_eq {d b : Nat} {bs : List Nat} {c : List Nat}
    {cs : List (List Nat)} (h : splitOnByte d bs = c :: cs) :
    splitOnByte d (b :: bs) = if b = d then [] :: c :: cs else (b :: c) :: cs := by
  simp only [splitOnByte, h]

theorem splitOnByte_ne_nil (d : Nat) (bs : List Nat) : splitOnByte d bs ≠ [] := by
  induction bs with
  | nil => simp [splitOnByte]
  | cons b bs ih =>
    rcases h : splitOnByte d bs with _ | ⟨c, cs⟩
    · exact absurd h ih
    · rw [splitOnByte_cons_eq h]
      split <;> simp

theorem splitOnByte_of_not_mem {d : Nat} {xs : List Nat} (h : d ∉ xs) :
    splitOnByte d xs = [xs] := by
  induction xs with
  | nil => rfl
  | cons b bs ih =>
    have hb : b ≠ d := fun e => h (e ▸ List.mem_cons_self b bs)
    have hbs : d ∉ bs := fun m => h (List.mem_cons_of_mem _ m)
    rw [splitOnByte_cons_eq (ih hbs), if_neg hb]

theorem splitOnByte_append {d : Nat} {xs : List Nat} (h : d ∉ xs) (ys : List Nat) :
    splitOnByte d (xs ++ d :: ys) = xs :: splitOnByte d ys := by
  induction xs with
  | nil =>
    rcases h2 : splitOnByte d ys with _ | ⟨c, cs⟩
    · exact absurd h2 (splitOnByte_ne_nil d ys)
    · rw [List.nil_append, splitOnByte_cons_eq h2, if_pos rfl]
  | cons b bs ih =>
    have hb : b ≠ d := fun e => h (e ▸ List.mem_cons_self b bs)
    have hbs : d ∉ bs := fun m => h (List.mem_cons_of_mem _ m)
    rw [List.cons_append, splitOnByte_cons_eq (ih hbs), if_neg hb]

theorem joinWithByte_splitOnByte (d : Nat) (xs : List Nat) :
    joinWithByte d (splitOnByte d xs) = xs := by
  induction xs with
  | nil => rfl
  | cons b bs ih =>
    rcases h : splitOnByte d bs with _ | ⟨c, cs⟩
    · exact absurd h (splitOnByte_ne_nil d bs)
    · rw [h] at ih
      rw [splitOnByte_cons_eq h]
      by_cases hb : b = d
      · rw [if_pos hb]
        show d :: joinWithByte d (c :: cs) = b :: bs
        rw [ih, hb]
      · rw [if_neg hb]
        cases cs with
        | nil =>
          show b :: c = b :: bs
          rw [show c = bs from ih]
        | cons c2 cs2 =>
          show b :: (c ++ d :: joinWithByte d (c2 :: cs2)) = b :: bs
          rw [show c ++ d :: joinWithByte d (c2 :: cs2) = bs from ih]

theorem splitOnByte_length (d : Nat) (xs : List Nat) :
    (splitOnByte d xs).length = xs.count d + 1 := by
  induction xs with
  | nil => simp [splitOnByte]
  | cons b bs ih =>
    rcases h : splitOnByte d bs with _ | ⟨c, cs⟩
    · exact absurd h (splitOnByte_ne_nil d bs)
    · rw [h] at ih
      rw [splitOnByte_cons_eq h]
      by_cases hb : b = d
      · subst hb
        rw [if_pos rfl, List.count_cons_self]
        simp only [List.length_cons] at ih ⊢
        omega
      · rw [if_neg hb, List.count_cons_of_ne (fun e => hb e.symm)]
        simp only [List.length_cons] at ih ⊢
        omega

theorem splitFirst_cons_ne {d b : Nat} (hb : b ≠ d) (bs : List Nat) :
    splitFirst d (b :: bs) =
      match splitFirst d bs with
      | some (pre, post) => some (b :: pre, post)
      | none => none := by
  simp only [splitFirst, if_neg hb]

theorem splitFirst_eq_none {d : Nat} {xs : List Nat} :
    splitFirst d xs = none ↔ d ∉ xs := by
  induction xs with
  | nil => simp [splitFirst]
  | cons b bs ih =>
    by_cases hb : b = d
    · subst hb
      simp [splitFirst]
    · rcases h : splitFirst d bs with _ | ⟨pre, post⟩
      · have hni : d ∉ bs := ih.mp h
        rw [splitFirst_cons_ne hb, h]
        refine iff_of_true rfl ?_
        simp only [List.mem_cons, not_or]
        exact ⟨fun e => hb e.symm, hni⟩
      · have hmem : d ∈ bs := by
          by_contra hc
          rw [ih.mpr hc] at h
          exact absurd h (by simp)
        rw [splitFirst_cons_ne hb, h]
        simp [hmem]

theorem splitFirst_eq_some {d : Nat} {xs pre post : List Nat}
    (h : splitFirst d xs = some (pre, post)) :
    xs = pre ++ d :: post ∧ d ∉ pre := by
  induction xs generalizing pre post with
  | nil => simp [splitFirst] at h
  | cons b bs ih =>
    simp only [splitFirst] at h
    by_cases hb : b = d
    · rw [if_pos hb] at h
      obtain ⟨rfl, rfl⟩ : ([] : List Nat) = pre ∧ bs = post := by
        simpa using h
      simp [hb]
    · rw [if_neg hb] at h
      rcases h2 : splitFirst d bs with _ | ⟨p, q⟩
      · rw [h2] at h
        simp at h
      · rw [h2] at h
        obtain ⟨rfl, rfl⟩ : b :: p = pre ∧ q = post := by
          simpa using h
        obtain ⟨hbs, hp⟩ := ih h2
        subst hbs
        refine ⟨rfl, ?_⟩
        simp only [List.mem_cons, not_or]
        exact ⟨fun e => hb e.symm, hp⟩

theorem splitFirst_append {d : Nat} {xs : List Nat} (h : d ∉ xs) (ys : List Nat) :
    splitFirst d (xs ++ d :: ys) = some (xs, ys) := by
  induction xs with
  | nil => simp [splitFirst]
  | cons b bs ih =>
    have hb : b ≠ d := fun e => h (e ▸ List.mem_cons_self b bs)
    have hbs : d ∉ bs := fun m => h (List.mem_cons_of_mem _ m)
    rw [List.cons_append, splitFirst_cons_ne hb, ih hbs]

theorem exists_five_of_length {α : Type _} {l : List α} (h : l.length = 5) :
    ∃ c0 c1 c2 c3 c4, l = [c0, c1, c2, c3, c4] := by
  rcases l with _ | ⟨a, _ | ⟨b, _ | ⟨c, _ | ⟨d, _ | ⟨e, rest⟩⟩⟩⟩⟩
  · simp at h
  · simp at h
  · simp at h
  · simp at h
  · simp at h
  · rcases rest with _ | ⟨f, rest⟩
    · exact ⟨a, b, c, d, e, rfl⟩
    · simp at h

/-! ## Lemmas about `MessageAttributes` encode/decode -/

theorem attrs_deserialize_of_splitOnByte {data : List Nat} {c0 c1 c2 c3 c4 : List Nat}
    (h : splitOnByte vbar data = [c0, c1, c2, c3, c4]) :
    MessageAttributes.deserialize data = some ⟨c0, c1, c2, c3, c4⟩ := by
  unfold MessageAttributes.deserialize
  rw [h]

theorem attrs_deserialize_eq_none_of_length {data : List Nat}
    (h : (splitOnByte vbar data).length ≠ 5) :
    MessageAttributes.deserialize data = none := by
  unfold MessageAttributes.deserialize
  rcases hs : splitOnByte vbar data with
      _ | ⟨c0, _ | ⟨c1, _ | ⟨c2, _ | ⟨c3, _ | ⟨c4, _ | ⟨c5, t⟩⟩⟩⟩⟩⟩ <;>
    first
      | rfl
      | exact absurd (by simp [hs]) h

theorem attrs_splitOnByte_serialize (m : MessageAttributes)
    (h0 : vbar ∉ m.content_type) (h1 : vbar ∉ m.descriptor)
    (h2 : vbar ∉ m.sender_group) (h3 : vbar ∉ m.sender_entity_id)
    (h4 : vbar ∉ m.sender_service_id) :
    splitOnByte vbar m.serialize =
      [m.content_type, m.descriptor, m.sender_group,
        m.sender_entity_id, m.sender_service_id] := by
  unfold MessageAttributes.serialize
  rw [splitOnByte_append h0, splitOnByte_append h1, splitOnByte_append h2,
    splitOnByte_append h3, splitOnByte_of_not_mem h4]

theorem attrs_deserialize_serialize (m : MessageAttributes)
    (h0 : vbar ∉ m.content_type) (h1 : vbar ∉ m.descriptor)
    (h2 : vbar ∉ m.sender_group) (h3 : vbar ∉ m.sender_entity_id)
    (h4 : vbar ∉ m.sender_service_id) :
    MessageAttributes.deserialize m.serialize = some m :=
  attrs_deserialize_of_splitOnByte (attrs_splitOnByte_serialize m h0 h1 h2 h3 h4)

/-! ## Lemmas about `AddressedAttributedMessage` decode -/

theorem deserialize_append_attrs (a b c : List Nat) (ha : dollar ∉ a)
    (hb : dollar ∉ b) :
    AddressedAttributedMessage.deserialize (a ++ dollar :: (b ++ dollar :: c)) =
      match MessageAttributes.deserialize b with
      | some attrs => some ⟨a, attrs, c⟩
      | none => none := by
  unfold AddressedAttributedMessage.deserialize
  rw [splitFirst_append ha]
  show deserializeRest a (b ++ dollar :: c) = _
  unfold deserializeRest
  rw [splitFirst_append hb]

theorem deserialize_some_attrs (a b c : List Nat) (attrs : MessageAttributes)
    (ha : dollar ∉ a) (hb : dollar ∉ b)
    (hattr : MessageAttributes.deserialize b = some attrs) :
    AddressedAttributedMessage.deserialize (a ++ dollar :: (b ++ dollar :: c)) =
      some ⟨a, attrs, c⟩ := by
  rw [deserialize_append_attrs a b c ha hb, hattr]

theorem deserialize_none_attrs (a b c : List Nat) (ha : dollar ∉ a)
    (hb : dollar ∉ b) (hattr : MessageAttributes.deserialize b = none) :
    AddressedAttributedMessage.deserialize (a ++ dollar :: (b ++ dollar :: c)) =
      none := by
  rw [deserialize_append_attrs a b c ha hb, hattr]

theorem deserialize_no_dollar (data : List Nat) (h : dollar ∉ data) :
    AddressedAttributedMessage.deserialize data =
      some ⟨[], MessageAttributes.default, data⟩ := by
  unfold AddressedAttributedMessage.deserialize
  rw [splitFirst_eq_none.mpr h]
  show deserializeRest [] data = _
  unfold deserializeRest
  rw [splitFirst_eq_none.mpr h]

theorem deserialize_one_dollar (pre post : List Nat) (hpre : dollar ∉ pre)
    (hpost : dollar ∉ post) :
    AddressedAttributedMessage.deserialize (pre ++ dollar :: post) =
      some ⟨pre, MessageAttributes.default, post⟩ := by
  unfold AddressedAttributedMessage.deserialize
  rw [splitFirst_append hpre]
  show deserializeRest pre post = _
  unfold deserializeRest
  rw [splitFirst_eq_none.mpr hpost]

/-! ## Claim theorems -/

/-- Claim C1, counterexample: the claim states that every input containing
fewer than two `$` bytes makes `AddressedAttributedMessage::deserialize`
return a failure value.  The input `"abc"` contains zero `$` bytes, yet
`deserialize` returns a message (empty address, default attributes, the whole
input as payload), so the claim as stated is false. -/
theorem c1_counterexample :
    (strBytes ("abc")).count dollar < 2 ∧
      AddressedAttributedMessage.deserialize (strBytes ("abc")) =
        some ⟨[], MessageAttributes.default, strBytes ("abc")⟩ := by
  constructor
  · decide
  · decide

/-- Claim C1, amended: for every input byte sequence containing fewer than two
`$` (0x24) bytes, `AddressedAttributedMessage::deserialize` returns a success
value (it never fails on such inputs; the sections missing their closing `$`
are left at their defaults). -/
theorem c1_theorem (data : List Nat) (h : data.count dollar < 2) :
    (AddressedAttributedMessage.deserialize data).isSome = true := by
  rcases h1 : splitFirst dollar data with _ | ⟨addr, rest⟩
  · rw [deserialize_no_dollar data (splitFirst_eq_none.mp h1)]
    rfl
  · obtain ⟨hdec, hnot⟩ := splitFirst_eq_some h1
    subst hdec
    rw [List.count_append, List.count_cons_self] at h
    have hpost : dollar ∉ rest := List.count_eq_zero.mp (by omega)
    rw [deserialize_one_dollar addr rest hnot hpost]
    rfl

/-- Witness for the amended claim C1 at a concrete dollar-free input. -/
theorem c1_witness :
    (strBytes ("no.dollars.here")).count dollar < 2 ∧
      (AddressedAttributedMessage.deserialize (strBytes ("no.dollars.here"))).isSome =
        true :=
  ⟨by decide, c1_theorem (strBytes ("no.dollars.here")) (by decide)⟩

/-- Claim C2: for every `Envelope` whose address bytes contain no `$` and
whose five attribute fields contain no `|` and no `$`,
`deserialize (serialize e)` succeeds and reproduces `e` field-for-field. -/
theorem c2_theorem (e : AddressedAttributedMessage)
    (ha : dollar ∉ e.address)
    (h0v : vbar ∉ e.attributes.content_type)
    (h0d : dollar ∉ e.attributes.content_type)
    (h1v : vbar ∉ e.attributes.descriptor)
    (h1d : dollar ∉ e.attributes.descriptor)
    (h2v : vbar ∉ e.attributes.sender_group)
    (h2d : dollar ∉ e.attributes.sender_group)
    (h3v : vbar ∉ e.attributes.sender_entity_id)
    (h3d : dollar ∉ e.attributes.sender_entity_id)
    (h4v : vbar ∉ e.attributes.sender_service_id)
    (h4d : dollar ∉ e.attributes.sender_service_id) :
    AddressedAttributedMessage.deserialize e.serialize = some e := by
  obtain ⟨addr, attrs, payload⟩ := e
  obtain ⟨ct, ds, sg, se, ss⟩ := attrs
  have hser : dollar ∉ MessageAttributes.serialize ⟨ct, ds, sg, se, ss⟩ := by
    simp only [MessageAttributes.serialize, List.mem_append, List.mem_cons, not_or]
    exact ⟨h0d, by decide, h1d, by decide, h2d, by decide, h3d, by decide, h4d⟩
  have hattrs :
      MessageAttributes.deserialize
        (MessageAttributes.serialize ⟨ct, ds, sg, se, ss⟩) =
      some ⟨ct, ds, sg, se, ss⟩ :=
    attrs_deserialize_serialize ⟨ct, ds, sg, se, ss⟩ h0v h1v h2v h3v h4v
  exact deserialize_some_attrs addr
    (MessageAttributes.serialize ⟨ct, ds, sg, se, ss⟩) payload
    ⟨ct, ds, sg, se, ss⟩ ha hser hattrs

/-- Witness for claim C2 at the repository's test envelope (its payload even
contains `$` bytes, which the round trip preserves). -/
theorem c2_witness :
    AddressedAttributedMessage.deserialize exampleMessage.serialize =
      some exampleMessage :=
  c2_theorem exampleMessage (by decide) (by decide) (by decide) (by decide)
    (by decide) (by decide) (by decide) (by decide) (by decide) (by decide)
    (by decide)

/-- Claim C3: `MessageAttributes::deserialize` succeeds if and only if
splitting the input on every `|` yields exactly 5 chunks — equivalently, the
input contains exactly four `|` bytes — and on success the five chunks are
assigned positionally to the five fields, with no other validation of chunk
contents. -/
theorem c3_theorem (data : List Nat) :
    ((MessageAttributes.deserialize data).isSome = true ↔
        (splitOnByte vbar data).length = 5)
    ∧ ((splitOnByte vbar data).length = 5 ↔ data.count vbar = 4)
    ∧ (∀ m, MessageAttributes.deserialize data = some m →
        splitOnByte vbar data =
          [m.content_type, m.descriptor, m.sender_group,
            m.sender_entity_id, m.sender_service_id]) := by
  refine ⟨?_, ?_, ?_⟩
  · constructor
    · intro hs
      by_contra hlen
      rw [attrs_deserialize_eq_none_of_length hlen] at hs
      simp at hs
    · intro hlen
      obtain ⟨c0, c1, c2, c3, c4, hc⟩ := exists_five_of_length hlen
      rw [attrs_deserialize_of_splitOnByte hc]
      rfl
  · rw [splitOnByte_length]
    omega
  · intro m hm
    by_cases hlen : (splitOnByte vbar data).length = 5
    · obtain ⟨c0, c1, c2, c3, c4, hc⟩ := exists_five_of_length hlen
      rw [attrs_deserialize_of_splitOnByte hc] at hm
      obtain rfl : (⟨c0, c1, c2, c3, c4⟩ : MessageAttributes) = m := by
        simpa using hm
      exact hc
    · rw [attrs_deserialize_eq_none_of_length hlen] at hm
      exact absurd hm (by simp)

/-- Witness for claim C3: a concrete five-chunk input (with an empty chunk,
which is not rejected) deserializes positionally. -/
theorem c3_witness :
    splitOnByte vbar (strBytes ("a|b||d|e")) =
      [strBytes ("a"), strBytes ("b"), [], strBytes ("d"), strBytes ("e")] :=
  (c3_theorem (strBytes ("a|b||d|e"))).2.2
    ⟨strBytes ("a"), strBytes ("b"), [], strBytes ("d"), strBytes ("e")⟩
    (by decide)

/-- Claim C4: for every input with at least two `$` bytes whose segment
between the first and second `$` decodes as a valid attribute block,
`deserialize` sets the payload to exactly all bytes after the second `$`,
verbatim (the third component `c` here is arbitrary and may contain further
`$` or `|` bytes, including the empty sequence). -/
theorem c4_theorem (a b c : List Nat) (attrs : MessageAttributes)
    (ha : dollar ∉ a) (hb : dollar ∉ b)
    (hattr : MessageAttributes.deserialize b = some attrs) :
    AddressedAttributedMessage.deserialize (a ++ dollar :: (b ++ dollar :: c)) =
      some ⟨a, attrs, c⟩ :=
  deserialize_some_attrs a b c attrs ha hb hattr

/-- Witness for claim C4: a concrete frame whose payload contains embedded
`$` bytes, decoded verbatim. -/
theorem c4_witness :
    AddressedAttributedMessage.deserialize
        (strBytes ("adr") ++ dollar ::
          (strBytes ("l|m|n|1|2") ++ dollar :: strBytes ("pay$load$"))) =
      some ⟨strBytes ("adr"),
        ⟨strBytes ("l"), strBytes ("m"), strBytes ("n"), strBytes ("1"),
          strBytes ("2")⟩,
        strBytes ("pay$load$")⟩ :=
  c4_theorem (strBytes ("adr")) (strBytes ("l|m|n|1|2")) (strBytes ("pay$load$"))
    ⟨strBytes ("l"), strBytes ("m"), strBytes ("n"), strBytes ("1"),
      strBytes ("2")⟩
    (by decide) (by decide) (by decide)

/-- Claim C5: the repository's end-to-end example — the envelope from
`test_serialize` serializes to exactly `TEST_DATA`, and deserializing
`TEST_DATA` reproduces all six field values exactly. -/
theorem c5_theorem :
    exampleMessage.serialize = exampleWire ∧
      AddressedAttributedMessage.deserialize exampleWire = some exampleMessage := by
  constructor
  · decide
  · decide

/-- Claim C6: `serialize` is exactly the concatenation
`address ++ "$" ++ (f0 ++ "|" ++ f1 ++ "|" ++ f2 ++ "|" ++ f3 ++ "|" ++ f4)
++ "$" ++ payload`, with no trailing delimiter; the output length is
`len address + 1 + len (serialized attributes) + 1 + len payload`, and
serialization is total (never fails). -/
theorem c6_theorem (e : AddressedAttributedMessage) :
    e.serialize =
        e.address ++ dollar ::
          ((e.attributes.content_type ++ vbar ::
            (e.attributes.descriptor ++ vbar ::
              (e.attributes.sender_group ++ vbar ::
                (e.attributes.sender_entity_id ++ vbar ::
                  e.attributes.sender_service_id)))) ++ dollar :: e.payload)
    ∧ e.serialize.length =
        e.address.length + 1 + e.attributes.serialize.length + 1 +
          e.payload.length := by
  constructor
  · rfl
  · simp only [AddressedAttributedMessage.serialize, List.length_append,
      List.length_cons]
    omega

/-- Claim C7: for every input with at least two `$` bytes whose segment
between the first and second `$` fails `MessageAttributes::deserialize`, the
whole `deserialize` returns failure — no partially decoded message. -/
theorem c7_theorem (a b c : List Nat) (ha : dollar ∉ a) (hb : dollar ∉ b)
    (hattr : MessageAttributes.deserialize b = none) :
    AddressedAttributedMessage.deserialize (a ++ dollar :: (b ++ dollar :: c)) =
      none :=
  deserialize_none_attrs a b c ha hb hattr

/-- Witness for claim C7: a concrete frame whose attribute section has only
two chunks is rejected whole. -/
theorem c7_witness :
    AddressedAttributedMessage.deserialize
        (strBytes ("adr") ++ dollar ::
          (strBytes ("x|y") ++ dollar :: strBytes ("payload"))) = none :=
  c7_theorem (strBytes ("adr")) (strBytes ("x|y")) (strBytes ("payload"))
    (by decide) (by decide) (by decide)

/-- Claim C8: for every attribute block whose `sender_group` is empty and
whose `descriptor` is non-empty (all fields free of `|`), serialization
produces an attribute section with an empty chunk in the `sender_group`
position, and deserializing that section succeeds and preserves
`sender_group` as the empty byte sequence. -/
theorem c8_theorem (m : MessageAttributes)
    (h0 : vbar ∉ m.content_type) (h1 : vbar ∉ m.descriptor)
    (h3 : vbar ∉ m.sender_entity_id) (h4 : vbar ∉ m.sender_service_id)
    (hg : m.sender_group = []) (hd : m.descriptor ≠ []) :
    m.serialize =
        m.content_type ++ vbar ::
          (m.descriptor ++ vbar :: vbar ::
            (m.sender_entity_id ++ vbar :: m.sender_service_id))
    ∧ splitOnByte vbar m.serialize =
        [m.content_type, m.descriptor, [], m.sender_entity_id,
          m.sender_service_id]
    ∧ MessageAttributes.deserialize m.serialize = some m := by
  have h2 : vbar ∉ m.sender_group := by
    rw [hg]
    exact List.not_mem_nil vbar
  refine ⟨?_, ?_, ?_⟩
  · simp [MessageAttributes.serialize, hg]
  · rw [attrs_splitOnByte_serialize m h0 h1 h2 h3 h4, hg]
  · exact attrs_deserialize_serialize m h0 h1 h2 h3 h4

/-- Witness for claim C8 at the attribute block of the repository's test
message (`lmcp|afrl.cmasi.AirVehicleState||1|2`). -/
theorem c8_witness :
    MessageAttributes.deserialize
        (MessageAttributes.serialize
          ⟨strBytes ("lmcp"), strBytes ("afrl.cmasi.AirVehicleState"), [],
            strBytes ("1"), strBytes ("2")⟩) =
      some ⟨strBytes ("lmcp"), strBytes ("afrl.cmasi.AirVehicleState"), [],
        strBytes ("1"), strBytes ("2")⟩ :=
  (c8_theorem
    ⟨strBytes ("lmcp"), strBytes ("afrl.cmasi.AirVehicleState"), [],
      strBytes ("1"), strBytes ("2")⟩
    (by decide) (by decide) (by decide) (by decide) (by decide)
    (by decide)).2.2

/-- Claim C9: on input with no `$` byte, `deserialize` returns a message with
empty address, all-empty attribute fields, and the whole input as the
payload; on input with exactly one `$` byte, it returns the bytes before the
`$` as the address, all-empty attribute fields, and the bytes after the `$`
as the payload. -/
theorem c9_theorem (data pre post : List Nat) :
    (data.count dollar = 0 →
      AddressedAttributedMessage.deserialize data =
        some ⟨[], MessageAttributes.default, data⟩)
    ∧ ((pre ++ dollar :: post).count dollar = 1 →
      AddressedAttributedMessage.deserialize (pre ++ dollar :: post) =
        some ⟨pre, MessageAttributes.default, post⟩) := by
  constructor
  · intro h
    exact deserialize_no_dollar data (List.count_eq_zero.mp h)
  · intro h
    rw [List.count_append, List.count_cons_self] at h
    have hpre : dollar ∉ pre := List.count_eq_zero.mp (by omega)
    have hpost : dollar ∉ post := List.count_eq_zero.mp (by omega)
    exact deserialize_one_dollar pre post hpre hpost

/-- Witness for claim C9 at a dollar-free input and at an input with exactly
one dollar byte. -/
theorem c9_witness :
    AddressedAttributedMessage.deserialize (strBytes ("nodollar")) =
        some ⟨[], MessageAttributes.default, strBytes ("nodollar")⟩
    ∧ AddressedAttributedMessage.deserialize
        (strBytes ("pre") ++ dollar :: strBytes ("post")) =
        some ⟨strBytes ("pre"), MessageAttributes.default, strBytes ("post")⟩ :=
  ⟨(c9_theorem (strBytes ("nodollar")) [] []).1 (by decide),
   (c9_theorem [] (strBytes ("pre")) (strBytes ("post"))).2 (by decide)⟩

/-- Claim C10: for every byte sequence with at least two `$` bytes whose
segment between the first and second `$` splits on `|` into exactly 5 chunks,
`deserialize` succeeds and serializing the resulting message reproduces the
input byte-for-byte. -/
theorem c10_theorem (a b c : List Nat) (ha : dollar ∉ a) (hb : dollar ∉ b)
    (h5 : (splitOnByte vbar b).length = 5) :
    ∃ m, AddressedAttributedMessage.deserialize
        (a ++ dollar :: (b ++ dollar :: c)) = some m
      ∧ m.serialize = a ++ dollar :: (b ++ dollar :: c) := by
  obtain ⟨c0, c1, c2, c3, c4, hc⟩ := exists_five_of_length h5
  refine ⟨⟨a, ⟨c0, c1, c2, c3, c4⟩, c⟩, ?_, ?_⟩
  · exact deserialize_some_attrs a b c ⟨c0, c1, c2, c3, c4⟩ ha hb
      (attrs_deserialize_of_splitOnByte hc)
  · show a ++ dollar ::
        (MessageAttributes.serialize ⟨c0, c1, c2, c3, c4⟩ ++ dollar :: c) = _
    have hj := joinWithByte_splitOnByte vbar b
    rw [hc] at hj
    have hb2 : MessageAttributes.serialize ⟨c0, c1, c2, c3, c4⟩ = b := hj
    rw [hb2]

/-- Witness for claim C10 at a concrete frame whose payload contains a `$`. -/
theorem c10_witness :
    ∃ m, AddressedAttributedMessage.deserialize
        (strBytes ("adr") ++ dollar ::
          (strBytes ("l|m||1|2") ++ dollar :: strBytes ("pay$tail"))) = some m
      ∧ m.serialize =
        strBytes ("adr") ++ dollar ::
          (strBytes ("l|m||1|2") ++ dollar :: strBytes ("pay$tail")) :=
  c10_theorem (strBytes ("adr")) (strBytes ("l|m||1|2")) (strBytes ("pay$tail"))
    (by decide) (by decide) (by decide)

end Uxas
